import Mathlib

/-!
# Verification of the Not-Wikipedia graph store and discovery engine

Shallow embedding of the SQLite-backed graph store (`database.ts`), the
recursive discovery engine (`wiki-discover.ts`) and the task-selection
policy, together with proofs of the specification's claims about them.

Tables are modelled as Lean lists of row structures in rowid order; each
SQL statement becomes a pure function from table state to table state.
-/

namespace NotWiki

/-- A row of the `discovery_queue` table (a FrontierEntry).
`discovered_at` is modelled as a natural-number timestamp; SQLite stores a
datetime string whose ASCII order coincides with chronological order. -/
structure QEntry where
  id : Nat
  target_filename : String
  suggested_title : Option String
  depth : Nat
  source_article : Option String
  discovered_at : Nat
  status : String
  priority : Int
  deriving Repr, DecidableEq

/-- The `discovery_queue` table: rows in rowid order. -/
abbrev Queue := List QEntry

/-- `queueDiscoveredConcept` (database.ts): `INSERT INTO discovery_queue ...`
under the `UNIQUE` constraint on `target_filename`; any existing row for the
target — whatever its status — makes the insert raise, which the code
catches and turns into `false`. -/
def queueDiscoveredConcept (q : Queue) (targetFilename : String)
    (suggestedTitle : Option String) (depth : Nat) (sourceArticle : Option String)
    (priority : Int) (now : Nat) (newId : Nat) : Bool × Queue :=
  if q.any (fun e => e.target_filename == targetFilename) then
    (false, q)
  else
    (true, q ++ [⟨newId, targetFilename, suggestedTitle, depth, sourceArticle,
                  now, "pending", priority⟩])

/-- `e` sorts strictly before `b` under
`ORDER BY priority DESC, depth ASC, discovered_at ASC`. -/
def beats (e b : QEntry) : Bool :=
  b.priority < e.priority ||
    (e.priority == b.priority &&
      (e.depth < b.depth ||
        (e.depth == b.depth && e.discovered_at < b.discovered_at)))

/-- Row eligibility in `getNextFromDiscoveryQueue`:
`WHERE status = 'pending' AND depth <= maxDepth`. -/
def eligible (maxDepth : Nat) (e : QEntry) : Bool :=
  e.status == "pending" && e.depth ≤ maxDepth

/-- Accumulator step selecting the first row of the `ORDER BY`: keep the
current best, replacing it only when the new row sorts strictly before it. -/
def pickBetter (best : Option QEntry) (e : QEntry) : Option QEntry :=
  match best with
  | none => some e
  | some b => if beats e b then some e else some b

/-- `getNextFromDiscoveryQueue` (database.ts): the first row of the eligible
rows under the `ORDER BY` of `beats` (`LIMIT 1`). -/
def getNextFromDiscoveryQueue (q : Queue) (maxDepth : Nat) : Option QEntry :=
  (q.filter (eligible maxDepth)).foldl pickBetter none

/-- `markDiscoveryInProgress` (database.ts):
`UPDATE discovery_queue SET status = 'in_progress' WHERE target_filename = ?`. -/
def markDiscoveryInProgress (q : Queue) (targetFilename : String) : Queue :=
  q.map (fun e =>
    if e.target_filename == targetFilename then
      { e with status := "in_progress" }
    else e)

/-- `completeDiscoveryItem` (database.ts):
`UPDATE discovery_queue SET status = 'completed' WHERE target_filename = ?`. -/
def completeDiscoveryItem (q : Queue) (targetFilename : String) : Queue :=
  q.map (fun e =>
    if e.target_filename == targetFilename then
      { e with status := "completed" }
    else e)

/-- `pruneCompletedDiscoveryItems` (database.ts): delete completed rows whose
`discovered_at` lies before the retention cutoff. -/
def pruneCompletedDiscoveryItems (q : Queue) (cutoff : Nat) : Queue :=
  q.filter (fun e => !(e.status == "completed" && e.discovered_at < cutoff))

/-- The spec's `claimNextFrontier(maxDepth)`: the caller-side composition of
`getNextFromDiscoveryQueue` and `markDiscoveryInProgress` from database.ts —
select the best pending entry within depth, then mark it in progress. -/
def claimNextFrontier (q : Queue) (maxDepth : Nat) : Option QEntry × Queue :=
  match getNextFromDiscoveryQueue q maxDepth with
  | none => (none, q)
  | some e => (some e, markDiscoveryInProgress q e.target_filename)

/-- `getArticleDepth` (database.ts): depth of the first queue row for the
filename, or 0 when no row exists (`row?.depth ?? 0`). -/
def getArticleDepth (q : Queue) (filename : String) : Nat :=
  match q.find? (fun e => e.target_filename == filename) with
  | some e => e.depth
  | none => 0

/-- A row of the `articles` table. -/
structure Article where
  id : Nat
  filename : String
  title : String
  articleType : String
  category : String
  outlinks : Int
  inlinks : Int
  created : String
  deriving Repr, DecidableEq

/-- A row of the `links` table (a Reference edge); the primary key is the
pair `(source_id, target_filename)`. -/
structure LinkRow where
  source_id : Nat
  target_filename : String
  deriving Repr, DecidableEq

/-- `updateArticleLinkCounts` (database.ts):
`UPDATE articles SET outlinks = ?, inlinks = ? WHERE filename = ?`. -/
def updateArticleLinkCounts (arts : List Article) (filename : String)
    (outlinks inlinks : Int) : List Article :=
  arts.map (fun a =>
    if a.filename == filename then
      { a with outlinks := outlinks, inlinks := inlinks }
    else a)

/-- `insertLink` (database.ts): `INSERT OR IGNORE INTO links ...` under the
primary key on `(source_id, target_filename)`. -/
def insertLink (links : List LinkRow) (sourceId : Nat) (targetFilename : String) :
    List LinkRow :=
  if links.any (fun l => l.source_id == sourceId && l.target_filename == targetFilename) then
    links
  else
    links ++ [⟨sourceId, targetFilename⟩]

/-- `clearLinks` (database.ts): `DELETE FROM links WHERE source_id = ?`. -/
def clearLinks (links : List LinkRow) (sourceId : Nat) : List LinkRow :=
  links.filter (fun l => !(l.source_id == sourceId))

/-- The spec's `replaceReferences(sourceId, targets)`: `clearLinks` followed
by `insertLink` for each target, as the re-scan callers compose them. -/
def replaceReferences (links : List LinkRow) (sourceId : Nat)
    (targets : List String) : List LinkRow :=
  targets.foldl (fun acc t => insertLink acc sourceId t) (clearLinks links sourceId)

/-- Number of `links` rows whose `target_filename` equals `filename`. -/
def inlinkCount (links : List LinkRow) (filename : String) : Nat :=
  (links.filter (fun l => l.target_filename == filename)).length

/-- `recalculateInlinkCounts` (database.ts): first
`UPDATE articles SET inlinks = 0`, then
`UPDATE articles SET inlinks = (SELECT COUNT(*) FROM links WHERE
links.target_filename = articles.filename)`. -/
def recalculateInlinkCounts (arts : List Article) (links : List LinkRow) :
    List Article :=
  (arts.map (fun a => { a with inlinks := 0 })).map
    (fun a => { a with inlinks := (inlinkCount links a.filename : Int) })

/-! ## Discovery engine (wiki-discover.ts) -/

/-- Default recursion-depth bound (`DEFAULT_MAX_DEPTH` in wiki-discover.ts). -/
def DEFAULT_MAX_DEPTH : Nat := 3

/-- JavaScript `hay.includes(pat)`: substring containment test. -/
def strIncludes (hay pat : String) : Bool :=
  hay.data.tails.any (fun t => pat.data.isPrefixOf t)

/-- `filename.replace(/\.html$/, "")`: strip a trailing `.html`. -/
def dropHtmlSuffix (s : String) : String :=
  if ".html".data.isSuffixOf s.data then
    String.mk (s.data.take (s.data.length - 5))
  else s

/-- Character-wise lower-casing (JavaScript `toLowerCase` on ASCII input). -/
def strToLower (s : String) : String :=
  String.mk (s.data.map Char.toLower)

/-- The normalized identifier used by the relevance filter:
extension-stripped and lower-cased. -/
def normalizeFilename (s : String) : String :=
  strToLower (dropHtmlSuffix s)

/-- Capitalize the first character of a word
(`word.charAt(0).toUpperCase() + word.slice(1)`). -/
def capitalizeWord (s : String) : String :=
  match s.data with
  | [] => ""
  | c :: rest => String.mk (c.toUpper :: rest)

/-- `filenameToTitle` (wiki-discover.ts): strip `.html`, split on `-`,
capitalize each word, join with spaces. -/
def filenameToTitle (filename : String) : String :=
  String.intercalate " " (((dropHtmlSuffix filename).splitOn "-").map capitalizeWord)

/-- The `relevance_filter` input of `wiki_discover`. -/
structure RelevanceFilter where
  required_keywords : List String
  excluded_keywords : List String
  min_filename_length : Option Nat
  deriving Repr, DecidableEq

/-- The minimum-length check of `passesRelevanceFilter`: the normalized
identifier must not be shorter than the configured minimum. -/
def minLengthOk (f : RelevanceFilter) (base : String) : Bool :=
  match f.min_filename_length with
  | none => true
  | some m => !(base.length < m)

/-- The excluded-keyword check of `passesRelevanceFilter`: any lower-cased
excluded keyword occurring as a substring of the normalized identifier
disqualifies. -/
def excludedOk (f : RelevanceFilter) (base : String) : Bool :=
  !(f.excluded_keywords.any (fun kw => strIncludes base (strToLower kw)))

/-- The required-keyword check of `passesRelevanceFilter`: when the list is
nonempty, at least one lower-cased required keyword must occur as a
substring of the normalized identifier. -/
def requiredOk (f : RelevanceFilter) (base : String) : Bool :=
  f.required_keywords.isEmpty ||
    f.required_keywords.any (fun kw => strIncludes base (strToLower kw))

/-- `passesRelevanceFilter` (wiki-discover.ts). -/
def passesRelevanceFilter (filename : String) (filter : Option RelevanceFilter) :
    Bool :=
  match filter with
  | none => true
  | some f =>
    let base := normalizeFilename filename
    minLengthOk f base && excludedOk f base && requiredOk f base

/-- `depthPriority` component of `calculatePriority`:
`Math.max(0, 100 - depth * 25)`. -/
def depthPriority (depth : Nat) : Int :=
  max 0 (100 - 25 * (depth : Int))

/-- `referencePriority` component of `calculatePriority`:
`Math.min(50, referenceCount * 10)`. -/
def referencePriority (referenceCount : Nat) : Int :=
  min 50 (10 * (referenceCount : Int))

/-- `calculatePriority` (wiki-discover.ts); the code's default for
`referenceCount` is 1. -/
def calculatePriority (depth : Nat) (referenceCount : Nat) : Int :=
  depthPriority depth + referencePriority referenceCount

/-- Per-target disposition in the discovery report (the `reason` strings of
wiki-discover.ts). -/
inductive Disposition where
  | alreadyExists
  | exceedsDepth
  | filtered
  | queuedNew
  | alreadyQueued
  deriving Repr, DecidableEq

/-- One line of the discovery report: target filename, computed depth, and
what happened to it. -/
structure ConceptReport where
  filename : String
  depth : Nat
  disposition : Disposition
  deriving Repr, DecidableEq

/-- Loop body of `discoverConcepts` for a single extracted link: the chain of
already-exists, depth and relevance checks, then the conditional enqueue.
`wiki` is the set of existing article filenames (the `articleExists`
filesystem check). -/
def processLink (wiki : List String) (maxDepth : Nat)
    (filter : Option RelevanceFilter) (sourceDepth : Nat) (source : String)
    (now : Nat) (acc : Queue × List ConceptReport × Nat) (link : String) :
    Queue × List ConceptReport × Nat :=
  let q := acc.1
  let reports := acc.2.1
  let nextId := acc.2.2
  let d := sourceDepth + 1
  if wiki.contains link then
    (q, reports ++ [⟨link, d, .alreadyExists⟩], nextId)
  else if maxDepth < d then
    (q, reports ++ [⟨link, d, .exceedsDepth⟩], nextId)
  else if !(passesRelevanceFilter link filter) then
    (q, reports ++ [⟨link, d, .filtered⟩], nextId)
  else
    let r := queueDiscoveredConcept q link (some (filenameToTitle link)) d
      (some source) (calculatePriority d 1) now nextId
    if r.1 then
      (r.2, reports ++ [⟨link, d, .queuedNew⟩], nextId + 1)
    else
      (r.2, reports ++ [⟨link, d, .alreadyQueued⟩], nextId)

/-- `discoverConcepts` (wiki-discover.ts): look up the source's depth,
deduplicate the extracted links (the `new Set` in `extractLinks`), and run
`processLink` over them in order. Returns the final queue and the report. -/
def discoverConcepts (wiki : List String) (q : Queue) (source : String)
    (maxDepth : Nat) (filter : Option RelevanceFilter)
    (rawLinks : List String) (now : Nat) (startId : Nat) :
    Queue × List ConceptReport × Nat :=
  let sourceDepth := getArticleDepth q source
  rawLinks.eraseDups.foldl
    (processLink wiki maxDepth filter sourceDepth source now)
    (q, [], startId)

/-! ## Consistency queries and the task selector -/

/-- `getOrphanArticles` (database.ts):
`SELECT filename FROM articles WHERE inlinks = 0 AND filename != 'index.html'`. -/
def getOrphanArticles (arts : List Article) : List String :=
  (arts.filter (fun a => a.inlinks == 0 && !(a.filename == "index.html"))).map
    (fun a => a.filename)

/-- A link row participates in `getBrokenLinks`: its source id joins to an
article and its target filename matches no article. -/
def isBrokenLinkRow (arts : List Article) (l : LinkRow) : Bool :=
  arts.any (fun a => a.id == l.source_id) &&
    !(arts.any (fun a => a.filename == l.target_filename))

/-- `getBrokenLinks` (database.ts): broken targets grouped with the filenames
of the articles referencing them (`GROUP BY l.target_filename` with
`GROUP_CONCAT(a.filename)`); groups listed in order of first appearance. -/
def getBrokenLinks (arts : List Article) (links : List LinkRow) :
    List (String × List String) :=
  (((links.filter (isBrokenLinkRow arts)).map (fun l => l.target_filename)).eraseDups).map
    (fun t =>
      (t, (links.filter (fun l => isBrokenLinkRow arts l && l.target_filename == t)).filterMap
        (fun l => (arts.find? (fun a => a.id == l.source_id)).map (fun a => a.filename))))

/-- Task kinds of `wiki_next_task`'s TaskSpec (`taskType` union;
`ecosystem_healthy` is declared in the union but never produced). -/
inductive TaskType where
  | repair_broken_link
  | resolve_placeholder
  | fix_orphan
  | create_new
  | ecosystem_healthy
  deriving Repr, DecidableEq

/-- The slice of `wiki_next_task`'s TaskSpec the claims concern: task type,
priority tag and the target filename; the prose context, human seed, color
and stats fields are reporting only. -/
structure TaskSpec where
  taskType : TaskType
  priority : String
  filename : String
  deriving Repr, DecidableEq

/-- `secureRandomElement(arr)`: `arr[randomValue % arr.length]`, `null` on
empty input; the 32-bit random draw enters as the parameter `r`. -/
def secureRandomElement {α : Type} (l : List α) (r : Nat) : Option α :=
  l.get? (r % l.length)

/-- Insertion step for sorting broken-link groups by descending number of
referencing sources. -/
def insertBySources (g : String × List String) :
    List (String × List String) → List (String × List String)
  | [] => [g]
  | h :: t =>
    if h.2.length < g.2.length then g :: h :: t else h :: insertBySources g t

/-- `brokenLinksData.sort((a, b) => b.sources.length - a.sources.length)`:
the broken-link groups in descending order of referencing-source count. -/
def sortBrokenBySources (broken : List (String × List String)) :
    List (String × List String) :=
  broken.foldr insertBySources []

/-- `selectNextTask` (the `wiki_next_task` tool, staged as the second
document inside lib/mcp/src/tools/wiki-git-publish.ts): broken links first
(critical), sorted by referencing-source count with a random pick among
them, then unresolved placeholder markers (high), then orphans (medium),
then create-new (low). The discovery queue `q` is part of the store the
selector runs against, but the function issues no query over it — it reads
only articles, links, orphans and the file-scan placeholder state.
`rBroken`, `rPlaceholder` and `rOrphan` are the random draws consumed by
`secureRandomElement`; the `|| arr[0]` fallbacks become `Option.getD`. -/
def selectNextTask (q : Queue) (arts : List Article) (links : List LinkRow)
    (placeholders : List String) (rBroken rPlaceholder rOrphan : Nat) :
    TaskSpec :=
  match sortBrokenBySources (getBrokenLinks arts links) with
  | g :: gs =>
    { taskType := .repair_broken_link, priority := "critical",
      filename := ((secureRandomElement (g :: gs) rBroken).getD g).1 }
  | [] =>
    match placeholders with
    | p :: ps =>
      { taskType := .resolve_placeholder, priority := "high",
        filename := (secureRandomElement (p :: ps) rPlaceholder).getD p }
    | [] =>
      match getOrphanArticles arts with
      | o :: os =>
        { taskType := .fix_orphan, priority := "medium",
          filename := (secureRandomElement (o :: os) rOrphan).getD o }
      | [] =>
        { taskType := .create_new, priority := "low",
          filename := "to-be-determined.html" }

/-! ## Write operations on the discovery queue, as a command datatype -/

/-- The write operations database.ts exposes on the `discovery_queue` table. -/
inductive QueueOp where
  | enqueue (targetFilename : String) (suggestedTitle : Option String)
      (depth : Nat) (sourceArticle : Option String) (priority : Int)
      (now : Nat) (newId : Nat)
  | markInProgress (targetFilename : String)
  | complete (targetFilename : String)
  | prune (cutoff : Nat)
  deriving Repr, DecidableEq

/-- Interpretation of a queue write operation. -/
def applyQueueOp (q : Queue) : QueueOp → Queue
  | .enqueue t title depth src prio now newId =>
    (queueDiscoveredConcept q t title depth src prio now newId).2
  | .markInProgress t => markDiscoveryInProgress q t
  | .complete t => completeDiscoveryItem q t
  | .prune cutoff => pruneCompletedDiscoveryItems q cutoff

/-- Interpretation of a sequence of queue write operations. -/
def applyQueueOps (q : Queue) (ops : List QueueOp) : Queue :=
  ops.foldl applyQueueOp q

/-- Status of the first queue row for a target, if any. -/
def statusOf (q : Queue) (targetFilename : String) : Option String :=
  (q.find? (fun e => e.target_filename == targetFilename)).map (fun e => e.status)

/-! ## Concrete stores used by the witnesses and counterexamples -/

/-- Concrete queue used to witness `claimNextFrontier_correct`: two pending
entries, the second with higher priority. -/
def demoQueueC1 : Queue :=
  [⟨1, "alpha.html", none, 2, none, 3, "pending", 60⟩,
   ⟨2, "beta.html", none, 1, some "root.html", 5, "pending", 85⟩]

/-- Queue holding a single completed entry for `x.html`; used to refute
claim C2 as stated. -/
def completedOnlyQueue : Queue :=
  [⟨1, "x.html", some "X", 1, some "root.html", 0, "completed", 50⟩]

/-- Articles used to witness the selector: one broken reference exists
(`a.html` links to a missing target). -/
def demoArticlesC3 : List Article :=
  [⟨1, "a.html", "A", "theory", "linguistics", 1, 1, "2025-01-01"⟩]

/-- Links used to witness the selector: the single link is broken. -/
def demoLinksC3 : List LinkRow := [⟨1, "missing.html"⟩]

/-- Queue holding a single depth-2 source entry, used against claim C7. -/
def c7SourceQueue : Queue :=
  [⟨1, "s.html", none, 2, some "r.html", 0, "in_progress", 60⟩]

/-- Single article with a stale inbound count of 0, used against claim C5's
only-writer conjunct. -/
def demoArticlesC5 : List Article :=
  [⟨1, "a.html", "A", "theory", "linguistics", 2, 0, "2025-01-01"⟩]

/-- Queue used against claim C9: its single entry is completed. -/
def c9Queue : Queue := [⟨1, "x.html", none, 1, none, 0, "completed", 10⟩]

/-- Queue with a single pending entry, used to witness the amended C9. -/
def c9PendingQueue : Queue := [⟨1, "p.html", none, 1, none, 9, "pending", 10⟩]

/-! ## Properties of the selection order -/

/-- `beats` unfolded to a lexicographic comparison of
(priority descending, depth ascending, discovery time ascending). -/
lemma beats_iff (e b : QEntry) :
    beats e b = true ↔
      b.priority < e.priority ∨
        (e.priority = b.priority ∧
          (e.depth < b.depth ∨
            (e.depth = b.depth ∧ e.discovered_at < b.discovered_at))) := by
  simp [beats, Bool.or_eq_true, Bool.and_eq_true, decide_eq_true_eq, beq_iff_eq]

lemma beats_irrefl (e : QEntry) : beats e e = false := by
  rw [← Bool.not_eq_true, beats_iff]
  omega

lemma beats_trans {a b c : QEntry} (h₁ : beats a b = true) (h₂ : beats b c = true) :
    beats a c = true := by
  rw [beats_iff] at h₁ h₂ ⊢
  omega

lemma beats_neg_trans {a b c : QEntry} (h₁ : beats a b = false)
    (h₂ : beats b c = false) : beats a c = false := by
  rw [← Bool.not_eq_true, beats_iff] at h₁ h₂ ⊢
  omega

/-- The fold of `pickBetter` started from `some b` returns an element of
`b :: l` that no element of `b :: l` sorts strictly before. -/
lemma foldl_pickBetter_some (l : List QEntry) (b : QEntry) :
    ∃ m, l.foldl pickBetter (some b) = some m ∧ m ∈ b :: l ∧
      ∀ e ∈ b :: l, beats e m = false := by
  induction l generalizing b with
  | nil =>
    refine ⟨b, rfl, List.mem_cons_self _ _, ?_⟩
    intro e he
    rcases List.mem_cons.mp he with rfl | he
    · exact beats_irrefl e
    · cases he
  | cons x xs ih =>
    by_cases hx : beats x b = true
    · obtain ⟨m, hm, hmem, hopt⟩ := ih x
      refine ⟨m, ?_, ?_, ?_⟩
      · simpa [pickBetter, hx] using hm
      · rcases List.mem_cons.mp hmem with rfl | h
        · exact List.mem_cons_of_mem _ (List.mem_cons_self _ _)
        · exact List.mem_cons_of_mem _ (List.mem_cons_of_mem _ h)
      · intro e he
        rcases List.mem_cons.mp he with rfl | he
        · by_contra hbm
          have hbm' : beats e m = true := by
            cases h : beats e m with
            | false => exact absurd h hbm
            | true => rfl
          have : beats x m = true := beats_trans hx hbm'
          have := hopt x (List.mem_cons_self _ _)
          simp [this] at *
        · exact hopt e he
    · have hx' : beats x b = false := by
        cases h : beats x b with
        | false => rfl
        | true => exact absurd h hx
      obtain ⟨m, hm, hmem, hopt⟩ := ih b
      refine ⟨m, ?_, ?_, ?_⟩
      · simpa [pickBetter, hx'] using hm
      · rcases List.mem_cons.mp hmem with rfl | h
        · exact List.mem_cons_self _ _
        · exact List.mem_cons_of_mem _ (List.mem_cons_of_mem _ h)
      · intro e he
        rcases List.mem_cons.mp he with rfl | he
        · exact hopt e (List.mem_cons_self _ _)
        · rcases List.mem_cons.mp he with rfl | he
          · exact beats_neg_trans hx' (hopt b (List.mem_cons_self _ _))
          · exact hopt e (List.mem_cons_of_mem _ he)

/-- When no pending row lies within the depth bound, selection returns
nothing. -/
lemma getNext_eq_none (q : Queue) (maxDepth : Nat)
    (h : ∀ e ∈ q, eligible maxDepth e = false) :
    getNextFromDiscoveryQueue q maxDepth = none := by
  have hf : q.filter (eligible maxDepth) = [] := by
    apply List.filter_eq_nil_iff.mpr
    intro e he
    simp [h e he]
  simp [getNextFromDiscoveryQueue, hf]

/-- When some pending row lies within the depth bound, selection returns an
eligible row that no eligible row sorts strictly before. -/
lemma getNext_eq_some (q : Queue) (maxDepth : Nat)
    (e : QEntry) (he : e ∈ q) (helig : eligible maxDepth e = true) :
    ∃ m, getNextFromDiscoveryQueue q maxDepth = some m ∧ m ∈ q ∧
      eligible maxDepth m = true ∧
      ∀ x ∈ q, eligible maxDepth x = true → beats x m = false := by
  have hmem : e ∈ q.filter (eligible maxDepth) := List.mem_filter.mpr ⟨he, helig⟩
  rcases hfil : q.filter (eligible maxDepth) with _ | ⟨h₀, t⟩
  · rw [hfil] at hmem
    cases hmem
  · obtain ⟨m, hm, hmm, hopt⟩ := foldl_pickBetter_some t h₀
    refine ⟨m, ?_, ?_, ?_, ?_⟩
    · simp [getNextFromDiscoveryQueue, hfil, pickBetter]
      exact hm
    · have : m ∈ q.filter (eligible maxDepth) := by rw [hfil]; exact hmm
      exact (List.mem_filter.mp this).1
    · have : m ∈ q.filter (eligible maxDepth) := by rw [hfil]; exact hmm
      exact (List.mem_filter.mp this).2
    · intro x hx hxe
      have : x ∈ q.filter (eligible maxDepth) := List.mem_filter.mpr ⟨hx, hxe⟩
      rw [hfil] at this
      exact hopt x this

/-- `markDiscoveryInProgress` sets the status of every row for the target to
`in_progress` and leaves every other row untouched. -/
lemma mark_spec (q : Queue) (t : String) :
    (∀ x ∈ markDiscoveryInProgress q t,
        (x.target_filename = t → x.status = "in_progress") ∧
        (x.target_filename ≠ t → x ∈ q)) ∧
    (∀ e ∈ q, e.target_filename ≠ t → e ∈ markDiscoveryInProgress q t) := by
  constructor
  · intro x hx
    obtain ⟨e, he, hfe⟩ := List.mem_map.mp hx
    by_cases het : e.target_filename == t
    · have : x = { e with status := "in_progress" } := by
        rw [← hfe]; simp [het]
      constructor
      · intro _; rw [this]
      · intro hne
        exfalso
        apply hne
        rw [this]
        exact beq_iff_eq.mp het
    · have hxe : x = e := by rw [← hfe]; simp [het]
      constructor
      · intro hxt
        exfalso
        rw [hxe] at hxt
        simp [hxt] at het
      · intro _; rw [hxe]; exact he
  · intro e he hne
    apply List.mem_map.mpr
    refine ⟨e, he, ?_⟩
    have : (e.target_filename == t) = false := by
      simp [hne]
    simp [this]

/-- Claim C1: on a store holding at least one pending FrontierEntry with
depth within the bound, `claimNextFrontier` returns an eligible pending
entry that no eligible entry precedes under (priority desc, depth asc,
discovery time asc), and the same operation marks that entry's target
`in_progress` while leaving all other rows untouched; when no eligible
entry exists it returns `none` and leaves the store unchanged. -/
theorem claimNextFrontier_correct (q : Queue) (maxDepth : Nat) :
    ((∃ e ∈ q, eligible maxDepth e = true) →
      ∃ m, (claimNextFrontier q maxDepth).1 = some m ∧ m ∈ q ∧
        m.status = "pending" ∧ m.depth ≤ maxDepth ∧
        (∀ x ∈ q, x.status = "pending" → x.depth ≤ maxDepth →
          beats x m = false) ∧
        (∀ x ∈ (claimNextFrontier q maxDepth).2,
          (x.target_filename = m.target_filename → x.status = "in_progress") ∧
          (x.target_filename ≠ m.target_filename → x ∈ q)) ∧
        (∀ x ∈ q, x.target_filename ≠ m.target_filename →
          x ∈ (claimNextFrontier q maxDepth).2)) ∧
    ((∀ e ∈ q, eligible maxDepth e = false) →
      claimNextFrontier q maxDepth = (none, q)) := by
  constructor
  · rintro ⟨e, he, helig⟩
    obtain ⟨m, hm, hmq, hmelig, hopt⟩ := getNext_eq_some q maxDepth e he helig
    have hcl : claimNextFrontier q maxDepth =
        (some m, markDiscoveryInProgress q m.target_filename) := by
      simp [claimNextFrontier, hm]
    have hmp : m.status = "pending" ∧ m.depth ≤ maxDepth := by
      have := hmelig
      simp [eligible, Bool.and_eq_true, beq_iff_eq, decide_eq_true_eq] at this
      exact this
    refine ⟨m, by rw [hcl], hmq, hmp.1, hmp.2, ?_, ?_, ?_⟩
    · intro x hx hxs hxd
      apply hopt x hx
      simp [eligible, hxs, hxd]
    · intro x hx
      rw [hcl] at hx
      exact (mark_spec q m.target_filename).1 x hx
    · intro x hx hne
      rw [hcl]
      exact (mark_spec q m.target_filename).2 x hx hne
  · intro h
    simp [claimNextFrontier, getNext_eq_none q maxDepth h]

/-- Witness for claim C1: on `demoQueueC1` with max depth 3, the claim
operation returns the higher-priority pending entry. -/
theorem claimNextFrontier_correct_witness :
    ∃ m, (claimNextFrontier demoQueueC1 3).1 = some m ∧ m ∈ demoQueueC1 ∧
      m.status = "pending" := by
  obtain ⟨m, h1, h2, h3, -⟩ :=
    (claimNextFrontier_correct demoQueueC1 3).1
      ⟨⟨1, "alpha.html", none, 2, none, 3, "pending", 60⟩, by decide, by decide⟩
  exact ⟨m, h1, h2, h3⟩

/-- Counterexample to claim C2 as stated: `completedOnlyQueue` holds no live
(non-completed) entry for `x.html`, yet `queueDiscoveredConcept` refuses the
insert and returns `false`, because the table's UNIQUE constraint on the
target filename ignores status. -/
theorem queueDiscoveredConcept_completed_blocks :
    completedOnlyQueue.filter
      (fun e => e.target_filename == "x.html" && !(e.status == "completed")) =
      [] ∧
    (queueDiscoveredConcept completedOnlyQueue "x.html" (some "X") 1
      (some "other.html") 60 9 2).1 = false ∧
    (queueDiscoveredConcept completedOnlyQueue "x.html" (some "X") 1
      (some "other.html") 60 9 2).2 = completedOnlyQueue := by
  refine ⟨by decide, by decide, by decide⟩

/-- Claim C2 (amended): `queueDiscoveredConcept` inserts a new pending
FrontierEntry if and only if no entry of any status — completed entries
included, until pruned — exists for the target, returns `true` exactly when
the insert happened, appending the new pending row, and surfaces a duplicate
as the boolean `false` with the store unchanged rather than propagating the
constraint violation. -/
theorem queueDiscoveredConcept_insert_iff (q : Queue) (t : String)
    (title : Option String) (depth : Nat) (src : Option String)
    (prio : Int) (now newId : Nat) :
    ((queueDiscoveredConcept q t title depth src prio now newId).1 = true ↔
      ∀ e ∈ q, e.target_filename ≠ t) ∧
    ((queueDiscoveredConcept q t title depth src prio now newId).1 = true →
      (queueDiscoveredConcept q t title depth src prio now newId).2 =
        q ++ [⟨newId, t, title, depth, src, now, "pending", prio⟩]) ∧
    ((queueDiscoveredConcept q t title depth src prio now newId).1 = false →
      (queueDiscoveredConcept q t title depth src prio now newId).2 = q) := by
  by_cases h : q.any (fun e => e.target_filename == t)
  · have hex : ¬∀ e ∈ q, e.target_filename ≠ t := by
      obtain ⟨e, he, het⟩ := List.any_eq_true.mp h
      intro hall
      exact hall e he (beq_iff_eq.mp het)
    refine ⟨?_, ?_, ?_⟩ <;> simp [queueDiscoveredConcept, h, hex]
  · have hb : q.any (fun e => e.target_filename == t) = false := by
      simpa using h
    have hall : ∀ e ∈ q, e.target_filename ≠ t := by
      intro e he
      have := List.any_eq_false.mp hb e he
      simpa using this
    refine ⟨?_, ?_, ?_⟩
    · simp [queueDiscoveredConcept, hb]
      exact hall
    · intro _
      simp [queueDiscoveredConcept, hb]
    · intro hfalse
      simp [queueDiscoveredConcept, hb] at hfalse

/-- Witness for the amended claim C2: inserting a fresh target into
`completedOnlyQueue` succeeds and appends a pending row. -/
theorem queueDiscoveredConcept_insert_iff_witness :
    (queueDiscoveredConcept completedOnlyQueue "y.html" none 2 none 35 9 2).1 =
      true ∧
    (queueDiscoveredConcept completedOnlyQueue "y.html" none 2 none 35 9 2).2 =
      completedOnlyQueue ++ [⟨2, "y.html", none, 2, none, 9, "pending", 35⟩] := by
  have h := queueDiscoveredConcept_insert_iff completedOnlyQueue "y.html" none 2
    none 35 9 2
  have h1 : (queueDiscoveredConcept completedOnlyQueue "y.html" none 2 none
      35 9 2).1 = true := by
    apply h.1.mpr
    intro e he
    simp only [completedOnlyQueue, List.mem_singleton] at he
    subst he
    simp
  exact ⟨h1, h.2.1 h1⟩

/-- `insertBySources` never produces the empty list. -/
lemma insertBySources_ne_nil (g : String × List String)
    (l : List (String × List String)) : insertBySources g l ≠ [] := by
  cases l with
  | nil => simp [insertBySources]
  | cons h t =>
    rw [insertBySources]
    by_cases hc : h.2.length < g.2.length <;> simp [hc]

/-- Sorting the broken-link groups yields the empty list exactly on empty
input. -/
lemma sortBrokenBySources_eq_nil_iff (broken : List (String × List String)) :
    sortBrokenBySources broken = [] ↔ broken = [] := by
  cases broken with
  | nil => simp [sortBrokenBySources]
  | cons x xs =>
    simp only [sortBrokenBySources, List.foldr_cons]
    constructor
    · intro h
      exact absurd h (insertBySources_ne_nil x _)
    · intro h
      cases h

/-- Membership is preserved by the sorting insertion step. -/
lemma mem_insertBySources (g a : String × List String)
    (l : List (String × List String)) :
    a ∈ insertBySources g l ↔ a = g ∨ a ∈ l := by
  induction l with
  | nil => simp [insertBySources]
  | cons h t ih =>
    rw [insertBySources]
    by_cases hc : h.2.length < g.2.length
    · rw [if_pos hc]
      simp only [List.mem_cons]
    · rw [if_neg hc]
      simp only [List.mem_cons, ih]
      tauto

/-- Sorting the broken-link groups preserves membership. -/
lemma mem_sortBrokenBySources (broken : List (String × List String))
    (a : String × List String) :
    a ∈ sortBrokenBySources broken ↔ a ∈ broken := by
  induction broken with
  | nil => simp [sortBrokenBySources]
  | cons x xs ih =>
    simp only [sortBrokenBySources, List.foldr_cons] at *
    rw [mem_insertBySources]
    simp [ih]

/-- A random pick with index fallback stays inside the list. -/
lemma secureRandomElement_getD_mem {α : Type} (x : α) (xs : List α) (r : Nat) :
    (secureRandomElement (x :: xs) r).getD x ∈ x :: xs := by
  rw [secureRandomElement]
  rcases h : (x :: xs).get? (r % (x :: xs).length) with _ | a
  · simp
  · simp only [Option.getD_some]
    exact List.get?_mem h

/-- Counterexample to claim C3 as stated: a store holding both a pending
FrontierEntry within depth 3 and a broken reference — the implemented
selector returns the broken-reference repair task, not the FrontierEntry
task, because its chain never consults the discovery queue. -/
theorem selectNextTask_ignores_frontier :
    demoQueueC1.filter (eligible 3) ≠ [] ∧
    getBrokenLinks demoArticlesC3 demoLinksC3 ≠ [] ∧
    (selectNextTask demoQueueC1 demoArticlesC3 demoLinksC3 [] 0 0 0).taskType =
      TaskType.repair_broken_link := by
  refine ⟨by decide, by decide, by decide⟩

/-- Claim C3 (amended): the implemented Task Selector is a strict precedence
chain that never consults the discovery frontier — if any broken reference
exists it returns a repair-broken-link task (critical) whose target is one
of the broken references (a random pick among them, sorted by
referencing-source count); else if any unresolved placeholder file exists, a
resolve-placeholder task (high) on one of them; else if any orphan exists, a
fix-orphan task (medium) on one of them; else a create-new task (low). The
result is identical for every state of the discovery queue, so a pending
FrontierEntry never takes precedence over anything. -/
theorem selectNextTask_precedence (q : Queue) (arts : List Article)
    (links : List LinkRow) (placeholders : List String)
    (rB rP rO : Nat) :
    (getBrokenLinks arts links ≠ [] →
      (selectNextTask q arts links placeholders rB rP rO).taskType =
        TaskType.repair_broken_link ∧
      (selectNextTask q arts links placeholders rB rP rO).priority =
        "critical" ∧
      ∃ g ∈ getBrokenLinks arts links,
        (selectNextTask q arts links placeholders rB rP rO).filename = g.1) ∧
    (getBrokenLinks arts links = [] → placeholders ≠ [] →
      (selectNextTask q arts links placeholders rB rP rO).taskType =
        TaskType.resolve_placeholder ∧
      (selectNextTask q arts links placeholders rB rP rO).priority = "high" ∧
      (selectNextTask q arts links placeholders rB rP rO).filename ∈
        placeholders) ∧
    (getBrokenLinks arts links = [] → placeholders = [] →
      getOrphanArticles arts ≠ [] →
      (selectNextTask q arts links placeholders rB rP rO).taskType =
        TaskType.fix_orphan ∧
      (selectNextTask q arts links placeholders rB rP rO).priority =
        "medium" ∧
      (selectNextTask q arts links placeholders rB rP rO).filename ∈
        getOrphanArticles arts) ∧
    (getBrokenLinks arts links = [] → placeholders = [] →
      getOrphanArticles arts = [] →
      (selectNextTask q arts links placeholders rB rP rO).taskType =
        TaskType.create_new ∧
      (selectNextTask q arts links placeholders rB rP rO).priority = "low") ∧
    (∀ q' : Queue, selectNextTask q' arts links placeholders rB rP rO =
      selectNextTask q arts links placeholders rB rP rO) := by
  refine ⟨?_, ?_, ?_, ?_, fun q' => rfl⟩
  · intro hb
    rcases hs : sortBrokenBySources (getBrokenLinks arts links) with _ | ⟨g, gs⟩
    · exact absurd ((sortBrokenBySources_eq_nil_iff _).mp hs) hb
    · have hsel : selectNextTask q arts links placeholders rB rP rO =
          { taskType := .repair_broken_link, priority := "critical",
            filename := ((secureRandomElement (g :: gs) rB).getD g).1 } := by
        rw [selectNextTask.eq_def, hs]
      refine ⟨by rw [hsel], by rw [hsel],
        (secureRandomElement (g :: gs) rB).getD g, ?_, by rw [hsel]⟩
      have hmem' : (secureRandomElement (g :: gs) rB).getD g ∈
          sortBrokenBySources (getBrokenLinks arts links) := by
        rw [hs]
        exact secureRandomElement_getD_mem g gs rB
      exact (mem_sortBrokenBySources _ _).mp hmem'
  · intro hb hp
    have hs : sortBrokenBySources (getBrokenLinks arts links) = [] := by
      rw [sortBrokenBySources_eq_nil_iff]
      exact hb
    rcases hpl : placeholders with _ | ⟨p, ps⟩
    · exact absurd hpl hp
    · have hsel : selectNextTask q arts links (p :: ps) rB rP rO =
          { taskType := .resolve_placeholder, priority := "high",
            filename := (secureRandomElement (p :: ps) rP).getD p } := by
        rw [selectNextTask.eq_def, hs]
      refine ⟨by rw [hsel], by rw [hsel], ?_⟩
      rw [hsel]
      exact secureRandomElement_getD_mem p ps rP
  · intro hb hp ho
    have hs : sortBrokenBySources (getBrokenLinks arts links) = [] := by
      rw [sortBrokenBySources_eq_nil_iff]
      exact hb
    rcases hor : getOrphanArticles arts with _ | ⟨o, os⟩
    · exact absurd hor ho
    · have hsel : selectNextTask q arts links placeholders rB rP rO =
          { taskType := .fix_orphan, priority := "medium",
            filename := (secureRandomElement (o :: os) rO).getD o } := by
        rw [selectNextTask.eq_def, hs, hp, hor]
      refine ⟨by rw [hsel], by rw [hsel], ?_⟩
      simp only [hsel, hor]
      exact secureRandomElement_getD_mem o os rO
  · intro hb hp ho
    have hs : sortBrokenBySources (getBrokenLinks arts links) = [] := by
      rw [sortBrokenBySources_eq_nil_iff]
      exact hb
    constructor <;> rw [selectNextTask.eq_def, hs, hp, ho]

/-- Witness for the amended claim C3: on the demo store with one broken
reference, the selector returns the repair-broken-link task at critical
priority targeting that reference. -/
theorem selectNextTask_precedence_witness :
    (selectNextTask demoQueueC1 demoArticlesC3 demoLinksC3 [] 0 0 0).taskType =
      TaskType.repair_broken_link ∧
    (selectNextTask demoQueueC1 demoArticlesC3 demoLinksC3 [] 0 0 0).priority =
      "critical" ∧
    ∃ g ∈ getBrokenLinks demoArticlesC3 demoLinksC3,
      (selectNextTask demoQueueC1 demoArticlesC3 demoLinksC3 [] 0 0 0).filename =
        g.1 := by
  exact (selectNextTask_precedence demoQueueC1 demoArticlesC3 demoLinksC3
    [] 0 0 0).1 (by decide)

/-! ## Invariants of the discovery loop -/

/-- Rows of the queue after one discovery-loop step: either an original row,
or the freshly enqueued pending entry at depth `d + 1` originating from the
scanned source with the computed priority. -/
lemma processLink_queue_mem (wiki : List String) (maxDepth : Nat)
    (filter : Option RelevanceFilter) (d : Nat) (source : String) (now : Nat)
    (acc : Queue × List ConceptReport × Nat) (link : String) :
    ∀ e ∈ (processLink wiki maxDepth filter d source now acc link).1,
      e ∈ acc.1 ∨
        (e.depth = d + 1 ∧ e.status = "pending" ∧
          e.source_article = some source ∧
          e.priority = calculatePriority (d + 1) 1) := by
  obtain ⟨q, reports, nid⟩ := acc
  intro e he
  by_cases h1 : link ∈ wiki
  · simp [processLink, h1] at he
    exact Or.inl he
  · by_cases h2 : maxDepth < d + 1
    · simp [processLink, h1, h2] at he
      exact Or.inl he
    · by_cases h3 : passesRelevanceFilter link filter = true
      · by_cases h4 : q.any (fun x => x.target_filename == link) = true
        · simp [processLink, h1, h2, h3, queueDiscoveredConcept, h4] at he
          exact Or.inl he
        · have h4' : q.any (fun x => x.target_filename == link) = false := by
            simpa using h4
          simp [processLink, h1, h2, h3, queueDiscoveredConcept, h4'] at he
          rcases he with he | he
          · exact Or.inl he
          · subst he
            exact Or.inr ⟨rfl, rfl, rfl, rfl⟩
      · have h3' : passesRelevanceFilter link filter = false := by
          simpa using h3
        simp [processLink, h1, h2, h3'] at he
        exact Or.inl he

/-- Each discovery-loop step appends exactly one report line, at depth
`d + 1`. -/
lemma processLink_report (wiki : List String) (maxDepth : Nat)
    (filter : Option RelevanceFilter) (d : Nat) (source : String) (now : Nat)
    (acc : Queue × List ConceptReport × Nat) (link : String) :
    ∃ r, (processLink wiki maxDepth filter d source now acc link).2.1 =
      acc.2.1 ++ [r] ∧ r.depth = d + 1 ∧ r.filename = link := by
  obtain ⟨q, reports, nid⟩ := acc
  by_cases h1 : link ∈ wiki
  · exact ⟨⟨link, d + 1, .alreadyExists⟩, by simp [processLink, h1], rfl, rfl⟩
  · by_cases h2 : maxDepth < d + 1
    · exact ⟨⟨link, d + 1, .exceedsDepth⟩, by simp [processLink, h1, h2],
        rfl, rfl⟩
    · by_cases h3 : passesRelevanceFilter link filter = true
      · by_cases h4 : q.any (fun x => x.target_filename == link) = true
        · exact ⟨⟨link, d + 1, .alreadyQueued⟩,
            by simp [processLink, h1, h2, h3, queueDiscoveredConcept, h4],
            rfl, rfl⟩
        · have h4' : q.any (fun x => x.target_filename == link) = false := by
            simpa using h4
          exact ⟨⟨link, d + 1, .queuedNew⟩,
            by simp [processLink, h1, h2, h3, queueDiscoveredConcept, h4'],
            rfl, rfl⟩
      · have h3' : passesRelevanceFilter link filter = false := by
          simpa using h3
        exact ⟨⟨link, d + 1, .filtered⟩, by simp [processLink, h1, h2, h3'],
          rfl, rfl⟩

/-- Fold version of `processLink_queue_mem`: every row of the final queue is
an original row or a freshly enqueued entry at depth `d + 1`. -/
lemma foldl_processLink_queue_mem (wiki : List String) (maxDepth : Nat)
    (filter : Option RelevanceFilter) (d : Nat) (source : String) (now : Nat)
    (links : List String) (acc : Queue × List ConceptReport × Nat) :
    ∀ e ∈ (links.foldl (processLink wiki maxDepth filter d source now) acc).1,
      e ∈ acc.1 ∨
        (e.depth = d + 1 ∧ e.status = "pending" ∧
          e.source_article = some source ∧
          e.priority = calculatePriority (d + 1) 1) := by
  induction links generalizing acc with
  | nil => intro e he; exact Or.inl he
  | cons l ls ih =>
    intro e he
    rw [List.foldl_cons] at he
    rcases ih (processLink wiki maxDepth filter d source now acc l) e he with
      h | h
    · exact processLink_queue_mem wiki maxDepth filter d source now acc l e h
    · exact Or.inr h

/-- Fold version of `processLink_report`: every report line of the final
report is an original line or sits at depth `d + 1`. -/
lemma foldl_processLink_report (wiki : List String) (maxDepth : Nat)
    (filter : Option RelevanceFilter) (d : Nat) (source : String) (now : Nat)
    (links : List String) (acc : Queue × List ConceptReport × Nat) :
    ∀ r ∈ (links.foldl (processLink wiki maxDepth filter d source now) acc).2.1,
      r ∈ acc.2.1 ∨ r.depth = d + 1 := by
  induction links generalizing acc with
  | nil => intro r hr; exact Or.inl hr
  | cons l ls ih =>
    intro r hr
    rcases ih (processLink wiki maxDepth filter d source now acc l) r hr with
      h | h
    · obtain ⟨r', hr', hd, -⟩ :=
        processLink_report wiki maxDepth filter d source now acc l
      rw [hr'] at h
      rcases List.mem_append.mp h with h | h
      · exact Or.inl h
      · rcases List.mem_singleton.mp h with rfl
        exact Or.inr hd
    · exact Or.inr h

/-- Claim C4: every FrontierEntry the discovery engine enqueues from a
source whose recorded depth is `d` has depth exactly `d + 1` — strictly
greater than the source's depth — and every line of the discovery report is
computed at that depth. -/
theorem discoverConcepts_depth (wiki : List String) (q : Queue)
    (source : String) (maxDepth : Nat) (filter : Option RelevanceFilter)
    (rawLinks : List String) (now startId : Nat) :
    (∀ e ∈ (discoverConcepts wiki q source maxDepth filter rawLinks now
        startId).1,
      e ∈ q ∨ (e.depth = getArticleDepth q source + 1 ∧
        getArticleDepth q source < e.depth)) ∧
    (∀ r ∈ (discoverConcepts wiki q source maxDepth filter rawLinks now
        startId).2.1,
      r.depth = getArticleDepth q source + 1) := by
  constructor
  · intro e he
    rcases foldl_processLink_queue_mem wiki maxDepth filter
        (getArticleDepth q source) source now rawLinks.eraseDups
        (q, [], startId) e he with h | h
    · exact Or.inl h
    · exact Or.inr ⟨h.1, by omega⟩
  · intro r hr
    rcases foldl_processLink_report wiki maxDepth filter
        (getArticleDepth q source) source now rawLinks.eraseDups
        (q, [], startId) r hr with h | h
    · cases h
    · exact h

/-- Witness for claim C4: a discovery run from a depth-2 source enqueues its
new concept at depth 3. -/
theorem discoverConcepts_depth_witness :
    ∀ e ∈ (discoverConcepts [] demoQueueC1 "alpha.html" 3 none
        ["gamma.html"] 7 10).1,
      e ∈ demoQueueC1 ∨ (e.depth = 3 ∧ 2 < e.depth) := by
  intro e he
  have h := (discoverConcepts_depth [] demoQueueC1 "alpha.html" 3 none
    ["gamma.html"] 7 10).1 e he
  have hd : getArticleDepth demoQueueC1 "alpha.html" = 2 := by decide
  rw [hd] at h
  exact h

/-- Claim C10: `getArticleDepth` returns the stored queue depth when a
discovery-queue row for the filename exists and 0 otherwise; consequently a
discovery run whose source article has no discovery-queue row enqueues
every newly discovered concept at depth exactly 1. -/
theorem getArticleDepth_default_zero (q : Queue) (filename : String) :
    (∀ e, q.find? (fun x => x.target_filename == filename) = some e →
      getArticleDepth q filename = e.depth) ∧
    (q.find? (fun x => x.target_filename == filename) = none →
      getArticleDepth q filename = 0) ∧
    (∀ wiki maxDepth filter rawLinks now startId,
      q.find? (fun x => x.target_filename == filename) = none →
      ∀ e ∈ (discoverConcepts wiki q filename maxDepth filter rawLinks now
          startId).1,
        e ∈ q ∨ e.depth = 1) := by
  refine ⟨?_, ?_, ?_⟩
  · intro e he
    simp [getArticleDepth, he]
  · intro hn
    simp [getArticleDepth, hn]
  · intro wiki maxDepth filter rawLinks now startId hn e he
    have hd : getArticleDepth q filename = 0 := by
      simp [getArticleDepth, hn]
    have he' := he
    rw [discoverConcepts, hd] at he'
    rcases foldl_processLink_queue_mem wiki maxDepth filter 0 filename now
        rawLinks.eraseDups (q, [], startId) e he' with h | h
    · exact Or.inl h
    · exact Or.inr h.1

/-- Witness for claim C10: discovery from a source absent from the queue
enqueues its new concept at depth 1. -/
theorem getArticleDepth_default_zero_witness :
    getArticleDepth completedOnlyQueue "root.html" = 0 ∧
    ∀ e ∈ (discoverConcepts [] completedOnlyQueue "root.html" 3 none
        ["fresh.html"] 7 10).1,
      e ∈ completedOnlyQueue ∨ e.depth = 1 := by
  have h := getArticleDepth_default_zero completedOnlyQueue "root.html"
  have hn : completedOnlyQueue.find?
      (fun x => x.target_filename == "root.html") = none := by decide
  exact ⟨h.2.1 hn, h.2.2 [] 3 none ["fresh.html"] 7 10 hn⟩

/-- Counterexample to claim C7 as stated: a discovery run with the default
max depth 3 enqueues a concept at depth 3 — the configured max depth — with
priority 35 = depthPriority 3 + referencePriority 1, where the depth
component is 25, not the zero the claim requires of `f` at the max depth;
and the reference count passed to `calculatePriority` is the constant
default 1, so the multiplicity bonus never varies. -/
theorem discovery_priority_counterexample :
    (discoverConcepts [] c7SourceQueue "s.html" DEFAULT_MAX_DEPTH none
        ["t.html"] 9 7).1 =
      c7SourceQueue ++
        [⟨7, "t.html", some (filenameToTitle "t.html"), 3, some "s.html", 9,
          "pending", depthPriority DEFAULT_MAX_DEPTH + referencePriority 1⟩] ∧
    depthPriority DEFAULT_MAX_DEPTH = 25 ∧
    ¬depthPriority DEFAULT_MAX_DEPTH = 0 ∧
    calculatePriority DEFAULT_MAX_DEPTH 1 = 35 := by
  refine ⟨rfl, by decide, by decide, by decide⟩

/-- Claim C7 (amended): every concept the discovery engine enqueues carries
priority `depthPriority(depth) + referencePriority(1)`: the depth component
`max(0, 100 − 25·depth)` decreases with depth and reaches zero at depth 4 —
one past the default max depth of 3 — and the reference-multiplicity bonus
`min(50, 10·count)` increases with the count and caps at 50, but discovery
always invokes `calculatePriority` with the default reference count 1, so
every enqueued priority equals the depth component plus the constant 10. -/
theorem discovery_priority_formula (wiki : List String) (q : Queue)
    (source : String) (maxDepth : Nat) (filter : Option RelevanceFilter)
    (rawLinks : List String) (now startId : Nat) :
    (∀ e ∈ (discoverConcepts wiki q source maxDepth filter rawLinks now
        startId).1,
      e ∈ q ∨ e.priority =
        depthPriority (getArticleDepth q source + 1) + referencePriority 1) ∧
    (∀ d₁ d₂ : Nat, d₁ ≤ d₂ → depthPriority d₂ ≤ depthPriority d₁) ∧
    (∀ d : Nat, 4 ≤ d → depthPriority d = 0) ∧
    (∀ c₁ c₂ : Nat, c₁ ≤ c₂ → referencePriority c₁ ≤ referencePriority c₂) ∧
    (∀ c : Nat, referencePriority c ≤ 50) ∧
    referencePriority 1 = 10 := by
  refine ⟨?_, ?_, ?_, ?_, ?_, by decide⟩
  · intro e he
    rcases foldl_processLink_queue_mem wiki maxDepth filter
        (getArticleDepth q source) source now rawLinks.eraseDups
        (q, [], startId) e he with h | h
    · exact Or.inl h
    · exact Or.inr h.2.2.2
  · intro d₁ d₂ hd
    simp only [depthPriority]
    have : (25 : Int) * d₁ ≤ 25 * d₂ := by
      have : (d₁ : Int) ≤ d₂ := by exact_mod_cast hd
      omega
    omega
  · intro d hd
    simp only [depthPriority]
    have : (4 : Int) ≤ d := by exact_mod_cast hd
    omega
  · intro c₁ c₂ hc
    simp only [referencePriority]
    have : (c₁ : Int) ≤ c₂ := by exact_mod_cast hc
    omega
  · intro c
    simp only [referencePriority]
    omega

/-- Witness for the amended claim C7: the entry enqueued in the concrete
depth-2 run carries priority depthPriority 3 + 10. -/
theorem discovery_priority_formula_witness :
    ∀ e ∈ (discoverConcepts [] c7SourceQueue "s.html" 3 none ["t.html"] 9
        7).1,
      e ∈ c7SourceQueue ∨ e.priority = depthPriority 3 + referencePriority 1 := by
  intro e he
  have h := (discovery_priority_formula [] c7SourceQueue "s.html" 3 none
    ["t.html"] 9 7).1 e he
  have hd : getArticleDepth c7SourceQueue "s.html" = 2 := by decide
  rw [hd] at h
  exact h

/-! ## Inlink recounting -/

/-- Counterexample to claim C5 as stated: `updateArticleLinkCounts` — a
second store operation, distinct from `recalculateInlinkCounts` — writes an
article's inbound count directly, setting it here from 0 to 5. -/
theorem updateArticleLinkCounts_writes_inlinks :
    demoArticlesC5.map (fun a => a.inlinks) = [0] ∧
    (updateArticleLinkCounts demoArticlesC5 "a.html" 2 5).map
      (fun a => a.inlinks) = [5] ∧
    ¬updateArticleLinkCounts demoArticlesC5 "a.html" 2 5 = demoArticlesC5 := by
  refine ⟨by decide, by decide, by decide⟩

/-- Claim C5 (amended): after `recalculateInlinkCounts` every Node's stored
inbound count equals the number of References whose target identifier
equals that Node's identifier, the pass recomputing every row in place; it
is not the only writer of inbound counts, however — `updateArticleLinkCounts`
also sets a named article's inbound count directly to a supplied value. -/
theorem recalculateInlinkCounts_correct (arts : List Article)
    (links : List LinkRow) :
    ((recalculateInlinkCounts arts links).map (fun a => a.filename) =
      arts.map (fun a => a.filename)) ∧
    (∀ a ∈ recalculateInlinkCounts arts links,
      a.inlinks = (inlinkCount links a.filename : Int)) ∧
    (∀ (f : String) (o i : Int), ∀ a ∈ updateArticleLinkCounts arts f o i,
      a.filename = f → a.inlinks = i) := by
  refine ⟨?_, ?_, ?_⟩
  · simp [recalculateInlinkCounts, List.map_map]
  · intro a ha
    rw [recalculateInlinkCounts, List.map_map] at ha
    obtain ⟨a₀, h₀, rfl⟩ := List.mem_map.mp ha
    rfl
  · intro f o i a ha haf
    obtain ⟨a₀, h₀, rfl⟩ := List.mem_map.mp ha
    by_cases h : a₀.filename = f
    · simp [h]
    · have hb : (a₀.filename == f) = false := by simp [h]
      rw [hb] at haf
      simp at haf
      exact absurd haf h

/-- Witness for the amended claim C5: recounting the demo store sets the
stale count to the true number of inbound references. -/
theorem recalculateInlinkCounts_correct_witness :
    ∀ a ∈ recalculateInlinkCounts demoArticlesC5 [⟨1, "a.html"⟩, ⟨2, "a.html"⟩],
      a.inlinks = (inlinkCount [⟨1, "a.html"⟩, ⟨2, "a.html"⟩] a.filename : Int) := by
  exact (recalculateInlinkCounts_correct demoArticlesC5
    [⟨1, "a.html"⟩, ⟨2, "a.html"⟩]).2.1

/-! ## Relevance filtering and per-target dispositions -/

/-- JavaScript substring containment agrees with list-infix of the character
sequences. -/
lemma strIncludes_iff (hay pat : String) :
    strIncludes hay pat = true ↔ pat.data <:+: hay.data := by
  simp only [strIncludes, List.any_eq_true, List.mem_tails,
    List.isPrefixOf_iff_prefix, List.infix_iff_prefix_suffix]
  constructor
  · rintro ⟨t, ht, hp⟩; exact ⟨t, hp, ht⟩
  · rintro ⟨t, hp, ht⟩; exact ⟨t, ht, hp⟩

/-- Claim C6: per scanned reference target, discovery skips with
"already exists" when a node with that identifier exists, with
"exceeds depth" when source depth + 1 exceeds the max depth, and with
"filtered" when the caller-supplied relevance filter rejects it; only
targets passing all checks are enqueued, recorded as newly queued or
already queued. The filter passes exactly when the minimum-length check,
the excluded-keyword check and the required-keyword check all hold on the
normalized (lower-cased, extension-stripped) identifier; both keyword
checks are substring tests against that normalized identifier — at least
one required keyword must occur, any excluded keyword occurrence
disqualifies — and the minimum-length check bounds its length. -/
theorem discovery_dispositions (wiki : List String) (maxDepth : Nat)
    (filter : Option RelevanceFilter) (d : Nat) (source : String) (now : Nat)
    (q : Queue) (reports : List ConceptReport) (nid : Nat) (link : String) :
    ((link ∈ wiki →
      processLink wiki maxDepth filter d source now (q, reports, nid) link =
        (q, reports ++ [⟨link, d + 1, .alreadyExists⟩], nid)) ∧
    (link ∉ wiki → maxDepth < d + 1 →
      processLink wiki maxDepth filter d source now (q, reports, nid) link =
        (q, reports ++ [⟨link, d + 1, .exceedsDepth⟩], nid)) ∧
    (link ∉ wiki → d + 1 ≤ maxDepth →
      passesRelevanceFilter link filter = false →
      processLink wiki maxDepth filter d source now (q, reports, nid) link =
        (q, reports ++ [⟨link, d + 1, .filtered⟩], nid)) ∧
    (link ∉ wiki → d + 1 ≤ maxDepth →
      passesRelevanceFilter link filter = true →
      (∀ e ∈ q, e.target_filename ≠ link) →
      processLink wiki maxDepth filter d source now (q, reports, nid) link =
        (q ++ [⟨nid, link, some (filenameToTitle link), d + 1, some source,
            now, "pending", calculatePriority (d + 1) 1⟩],
          reports ++ [⟨link, d + 1, .queuedNew⟩], nid + 1)) ∧
    (link ∉ wiki → d + 1 ≤ maxDepth →
      passesRelevanceFilter link filter = true →
      (∃ e ∈ q, e.target_filename = link) →
      processLink wiki maxDepth filter d source now (q, reports, nid) link =
        (q, reports ++ [⟨link, d + 1, .alreadyQueued⟩], nid))) ∧
    (∀ f : RelevanceFilter,
      passesRelevanceFilter link (some f) = true ↔
        (minLengthOk f (normalizeFilename link) = true ∧
          excludedOk f (normalizeFilename link) = true ∧
          requiredOk f (normalizeFilename link) = true)) ∧
    (∀ (f : RelevanceFilter) (m : Nat), f.min_filename_length = some m →
      (minLengthOk f (normalizeFilename link) = true ↔
        m ≤ (normalizeFilename link).length)) ∧
    (∀ f : RelevanceFilter,
      excludedOk f (normalizeFilename link) = true ↔
        ∀ kw ∈ f.excluded_keywords,
          ¬((strToLower kw).data <:+: (normalizeFilename link).data)) ∧
    (∀ f : RelevanceFilter, f.required_keywords ≠ [] →
      (requiredOk f (normalizeFilename link) = true ↔
        ∃ kw ∈ f.required_keywords,
          (strToLower kw).data <:+: (normalizeFilename link).data)) := by
  refine ⟨⟨?_, ?_, ?_, ?_, ?_⟩, ?_, ?_, ?_, ?_⟩
  · intro h1
    simp [processLink, h1]
  · intro h1 h2
    simp [processLink, h1, h2]
  · intro h1 h2 h3
    have h2' : ¬(maxDepth < d + 1) := not_lt.mpr h2
    simp [processLink, h1, h2', h3]
  · intro h1 h2 h3 h4
    have h2' : ¬(maxDepth < d + 1) := not_lt.mpr h2
    have hany : q.any (fun x => x.target_filename == link) = false := by
      apply List.any_eq_false.mpr
      intro e he
      simpa using h4 e he
    simp [processLink, h1, h2', h3, queueDiscoveredConcept, hany]
  · intro h1 h2 h3 h4
    have h2' : ¬(maxDepth < d + 1) := not_lt.mpr h2
    have hany : q.any (fun x => x.target_filename == link) = true := by
      apply List.any_eq_true.mpr
      obtain ⟨e, he, het⟩ := h4
      exact ⟨e, he, by simpa using het⟩
    simp [processLink, h1, h2', h3, queueDiscoveredConcept, hany]
  · intro f
    simp [passesRelevanceFilter, Bool.and_eq_true, and_assoc]
  · intro f m hm
    simp [minLengthOk, hm, Nat.not_lt]
  · intro f
    simp only [excludedOk, Bool.not_eq_true', List.any_eq_false]
    constructor
    · intro h kw hkw
      rw [← strIncludes_iff]
      exact h kw hkw
    · intro h kw hkw
      rw [strIncludes_iff]
      exact h kw hkw
  · intro f hne
    have hie : f.required_keywords.isEmpty = false := by
      simpa [List.isEmpty_iff] using hne
    simp [requiredOk, hie, List.any_eq_true, strIncludes_iff]

/-- Witness for claim C6: for the already-existing target
`semantic-drift.html`, the loop reports "already exists" and queues
nothing; and a filter requiring `semantic` with minimum length 4 passes the
target. -/
theorem discovery_dispositions_witness :
    processLink ["semantic-drift.html"] 3 none 0 "root.html" 5
        ([], [], 4) "semantic-drift.html" =
      ([], [⟨"semantic-drift.html", 1, .alreadyExists⟩], 4) ∧
    passesRelevanceFilter "semantic-drift.html"
      (some ⟨["semantic"], ["meta"], some 4⟩) = true := by
  constructor
  · exact (discovery_dispositions ["semantic-drift.html"] 3 none 0 "root.html"
      5 [] [] 4 "semantic-drift.html").1.1 (by decide)
  · exact ((discovery_dispositions [] 3 none 0 "root.html" 5 [] [] 4
      "semantic-drift.html").2.1 ⟨["semantic"], ["meta"], some 4⟩).mpr
      ⟨by decide, by decide, by decide⟩

/-! ## Reference replacement -/

/-- Rows surviving `clearLinks` belong to other sources. -/
lemma mem_clearLinks (links : List LinkRow) (id : Nat) (l : LinkRow) :
    l ∈ clearLinks links id ↔ l ∈ links ∧ l.source_id ≠ id := by
  simp [clearLinks, List.mem_filter]

/-- `clearLinks` distributes over append. -/
lemma clearLinks_append (l₁ l₂ : List LinkRow) (id : Nat) :
    clearLinks (l₁ ++ l₂) id = clearLinks l₁ id ++ clearLinks l₂ id := by
  simp [clearLinks, List.filter_append]

/-- Clearing twice is clearing once. -/
lemma clearLinks_idem (links : List LinkRow) (id : Nat) :
    clearLinks (clearLinks links id) id = clearLinks links id := by
  simp [clearLinks, List.filter_filter]

/-- Clearing a source after refilling its rows is clearing it in the first
place: every row the fold adds carries that source id. -/
lemma clearLinks_foldl_insert (ts : List String) (base : List LinkRow)
    (id : Nat) :
    clearLinks (ts.foldl (fun acc t => insertLink acc id t) base) id =
      clearLinks base id := by
  induction ts generalizing base with
  | nil => rfl
  | cons t ts ih =>
    rw [List.foldl_cons, ih]
    by_cases h : base.any
        (fun l => l.source_id == id && l.target_filename == t)
    · simp [insertLink, h]
    · have h' : base.any
          (fun l => l.source_id == id && l.target_filename == t) = false := by
        simpa using h
      rw [insertLink, h']
      simp only [Bool.false_eq_true, if_false, clearLinks_append]
      have : clearLinks [(⟨id, t⟩ : LinkRow)] id = [] := by
        simp [clearLinks]
      rw [this, List.append_nil]

/-- Membership in the fold of `insertLink`: a row is an original row or one
of the inserted source rows. -/
lemma mem_foldl_insert (ts : List String) (base : List LinkRow) (id : Nat)
    (l : LinkRow) :
    l ∈ ts.foldl (fun acc t => insertLink acc id t) base ↔
      l ∈ base ∨ ∃ t ∈ ts, l = ⟨id, t⟩ := by
  induction ts generalizing base with
  | nil => simp
  | cons t ts ih =>
    rw [List.foldl_cons, ih]
    constructor
    · rintro (h | ⟨t', ht', rfl⟩)
      · by_cases hb : base.any
            (fun x => x.source_id == id && x.target_filename == t)
        · rw [insertLink, hb] at h
          simp only [if_true] at h
          exact Or.inl h
        · have hb' : base.any
              (fun x => x.source_id == id && x.target_filename == t) = false := by
            simpa using hb
          rw [insertLink, hb'] at h
          simp only [Bool.false_eq_true, if_false] at h
          rcases List.mem_append.mp h with h | h
          · exact Or.inl h
          · rcases List.mem_singleton.mp h with rfl
            exact Or.inr ⟨t, List.mem_cons_self _ _, rfl⟩
      · exact Or.inr ⟨t', List.mem_cons_of_mem _ ht', rfl⟩
    · rintro (h | ⟨t', ht', rfl⟩)
      · left
        by_cases hb : base.any
            (fun x => x.source_id == id && x.target_filename == t)
        · rw [insertLink, hb]
          simpa using h
        · have hb' : base.any
              (fun x => x.source_id == id && x.target_filename == t) = false := by
            simpa using hb
          rw [insertLink, hb']
          simp only [Bool.false_eq_true, if_false]
          exact List.mem_append_left _ h
      · rcases List.mem_cons.mp ht' with rfl | ht'
        · left
          by_cases hb : base.any
              (fun x => x.source_id == id && x.target_filename == t')
          · obtain ⟨x, hx, hxp⟩ := List.any_eq_true.mp hb
            have hx' : x = ⟨id, t'⟩ := by
              cases x
              simp only [Bool.and_eq_true, beq_iff_eq] at hxp
              simp [hxp.1, hxp.2]
            rw [insertLink, hb]
            simp only [if_true]
            rw [← hx']
            exact hx
          · have hb' : base.any
                (fun x => x.source_id == id && x.target_filename == t') = false := by
              simpa using hb
            rw [insertLink, hb']
            simp only [Bool.false_eq_true, if_false]
            exact List.mem_append_right _ (List.mem_singleton.mpr rfl)
        · exact Or.inr ⟨t', ht', rfl⟩

/-- The fold of `insertLink` keeps the source's rows duplicate-free when the
base holds no rows for the source. -/
lemma nodup_foldl_insert (ts : List String) (base : List LinkRow) (id : Nat)
    (hbase : (base.filter (fun l => l.source_id == id)).Nodup) :
    ((ts.foldl (fun acc t => insertLink acc id t) base).filter
      (fun l => l.source_id == id)).Nodup := by
  induction ts generalizing base with
  | nil => exact hbase
  | cons t ts ih =>
    rw [List.foldl_cons]
    apply ih
    by_cases hb : base.any
        (fun x => x.source_id == id && x.target_filename == t)
    · rw [insertLink, hb]
      simpa using hbase
    · have hb' : base.any
          (fun x => x.source_id == id && x.target_filename == t) = false := by
        simpa using hb
      rw [insertLink, hb']
      simp only [Bool.false_eq_true, if_false, List.filter_append]
      have hnew : (⟨id, t⟩ : LinkRow) ∉ base := by
        intro hmem
        have := List.any_eq_false.mp hb' _ hmem
        simp at this
      have : ([(⟨id, t⟩ : LinkRow)].filter (fun l => l.source_id == id)) =
          [⟨id, t⟩] := by simp
      rw [this]
      rw [List.nodup_append]
      refine ⟨hbase, List.nodup_singleton _, ?_⟩
      intro x hx hx1
      rcases List.mem_singleton.mp hx1 with rfl
      exact hnew (List.mem_filter.mp hx).1

/-- Claim C8: replacing a source's references — clearing all its rows then
inserting the given targets, ignoring duplicates — leaves exactly one row
per given target for that source, touches no other source's rows, and is
idempotent: a second identical call is a no-op. -/
theorem replaceReferences_idempotent (links : List LinkRow) (id : Nat)
    (ts : List String) :
    (∀ t : String,
      (⟨id, t⟩ : LinkRow) ∈ replaceReferences links id ts ↔ t ∈ ts) ∧
    ((replaceReferences links id ts).filter
      (fun l => l.source_id == id)).Nodup ∧
    replaceReferences (replaceReferences links id ts) id ts =
      replaceReferences links id ts ∧
    (∀ l ∈ replaceReferences links id ts, l.source_id ≠ id → l ∈ links) := by
  refine ⟨?_, ?_, ?_, ?_⟩
  · intro t
    rw [replaceReferences, mem_foldl_insert]
    constructor
    · rintro (h | ⟨t', ht', he⟩)
      · exact absurd rfl ((mem_clearLinks links id _).mp h).2
      · cases he
        exact ht'
    · intro ht
      exact Or.inr ⟨t, ht, rfl⟩
  · apply nodup_foldl_insert
    have : (clearLinks links id).filter (fun l => l.source_id == id) = [] := by
      apply List.filter_eq_nil_iff.mpr
      intro l hl
      have := ((mem_clearLinks links id l).mp hl).2
      simpa using this
    rw [this]
    exact List.nodup_nil
  · rw [replaceReferences, replaceReferences, clearLinks_foldl_insert,
      clearLinks_idem]
  · intro l hl hlid
    rw [replaceReferences, mem_foldl_insert] at hl
    rcases hl with h | ⟨t', ht', rfl⟩
    · exact ((mem_clearLinks links id l).mp h).1
    · exact absurd rfl hlid

/-- Witness for claim C8: replacing the references of source 1 twice with
the same three targets leaves exactly those rows. -/
theorem replaceReferences_idempotent_witness :
    ((⟨1, "a.html"⟩ : LinkRow) ∈
      replaceReferences [⟨1, "old.html"⟩, ⟨2, "z.html"⟩] 1
        ["a.html", "b.html", "c.html"] ↔
      "a.html" ∈ ["a.html", "b.html", "c.html"]) ∧
    (∀ l ∈ replaceReferences [⟨1, "old.html"⟩, ⟨2, "z.html"⟩] 1
        ["a.html", "b.html", "c.html"],
      l.source_id ≠ 1 → l ∈ [⟨1, "old.html"⟩, ⟨2, "z.html"⟩]) := by
  have h := replaceReferences_idempotent [⟨1, "old.html"⟩, ⟨2, "z.html"⟩] 1
    ["a.html", "b.html", "c.html"]
  exact ⟨h.1 "a.html", h.2.2.2⟩

/-! ## Lifecycle of queue statuses -/

/-- `find?` over an append scans the left part first. -/
lemma find?_append_queue (l₁ l₂ : Queue) (p : QEntry → Bool) :
    (l₁ ++ l₂).find? p =
      match l₁.find? p with
      | some x => some x
      | none => l₂.find? p := by
  induction l₁ with
  | nil => simp
  | cons x xs ih =>
    simp only [List.cons_append, List.find?]
    cases h : p x with
    | true => rfl
    | false => exact ih

/-- `find?` by target commutes with any row map that preserves targets. -/
lemma find?_map_target_preserving (q : Queue) (g : QEntry → QEntry)
    (t : String) (hg : ∀ e, (g e).target_filename = e.target_filename) :
    (q.map g).find? (fun e => e.target_filename == t) =
      (q.find? (fun e => e.target_filename == t)).map g := by
  induction q with
  | nil => rfl
  | cons x xs ih =>
    simp only [List.map_cons, List.find?, hg x]
    cases h : x.target_filename == t with
    | true => rfl
    | false => exact ih

/-- Counterexample to claim C9 as stated: `markDiscoveryInProgress` updates
by target with no status guard, so applying it to a completed entry moves
that entry back from completed to in_progress. -/
theorem markDiscoveryInProgress_regresses :
    statusOf c9Queue "x.html" = some "completed" ∧
    statusOf (applyQueueOp c9Queue (QueueOp.markInProgress "x.html"))
      "x.html" = some "in_progress" := by
  refine ⟨by decide, by decide⟩

/-- Claim C9 (amended): no store write operation moves a target's queue
entry back to pending — when the entry for a target is pending after any
single operation on a store with unique targets, it was already pending
before the operation or the target had no entry at all (so entries never
regress to pending from in_progress or completed); the completed state is
not protected, however: `markDiscoveryInProgress` on a completed target
moves it back to in_progress. -/
theorem statusNeverBackToPending (op : QueueOp) (q : Queue) (t : String)
    (hu : (q.map (fun e => e.target_filename)).Nodup) :
    statusOf (applyQueueOp q op) t = some "pending" →
      statusOf q t = some "pending" ∨ statusOf q t = none := by
  intro hp
  cases op with
  | enqueue t' title depth src prio now newId =>
    by_cases h : q.any (fun e => e.target_filename == t')
    · rw [applyQueueOp] at hp
      rw [queueDiscoveredConcept, h] at hp
      simp only [if_true] at hp
      exact Or.inl hp
    · have h' : q.any (fun e => e.target_filename == t') = false := by
        simpa using h
      rw [applyQueueOp, queueDiscoveredConcept, h'] at hp
      simp only [Bool.false_eq_true, if_false] at hp
      rw [statusOf, find?_append_queue] at hp
      rcases hq : q.find? (fun e => e.target_filename == t) with _ | e
      · right
        simp [statusOf, hq]
      · left
        rw [hq] at hp
        simpa [statusOf, hq] using hp
  | markInProgress t' =>
    have hg : ∀ e : QEntry,
        ((if e.target_filename == t' then { e with status := "in_progress" }
          else e) : QEntry).target_filename = e.target_filename := by
      intro e
      by_cases he : e.target_filename == t' <;> simp [he]
    rw [applyQueueOp, statusOf, markDiscoveryInProgress,
      find?_map_target_preserving _ _ _ hg] at hp
    rcases hq : q.find? (fun e => e.target_filename == t) with _ | e
    · rw [hq] at hp
      cases hp
    · rw [hq] at hp
      simp at hp
      by_cases he : e.target_filename = t'
      · simp [he] at hp
      · simp [he] at hp
        left
        simp [statusOf, hq, hp]
  | complete t' =>
    have hg : ∀ e : QEntry,
        ((if e.target_filename == t' then { e with status := "completed" }
          else e) : QEntry).target_filename = e.target_filename := by
      intro e
      by_cases he : e.target_filename == t' <;> simp [he]
    rw [applyQueueOp, statusOf, completeDiscoveryItem,
      find?_map_target_preserving _ _ _ hg] at hp
    rcases hq : q.find? (fun e => e.target_filename == t) with _ | e
    · rw [hq] at hp
      cases hp
    · rw [hq] at hp
      simp at hp
      by_cases he : e.target_filename = t'
      · simp [he] at hp
      · simp [he] at hp
        left
        simp [statusOf, hq, hp]
  | prune cutoff =>
    left
    rw [applyQueueOp] at hp
    rw [statusOf] at hp
    rcases hf : (pruneCompletedDiscoveryItems q cutoff).find?
        (fun e => e.target_filename == t) with _ | e
    · rw [hf] at hp
      cases hp
    · rw [hf] at hp
      simp at hp
      have hmem : e ∈ pruneCompletedDiscoveryItems q cutoff :=
        List.mem_of_find?_eq_some hf

      have hpe := List.find?_some hf
      simp only [beq_iff_eq] at hpe
      have heq : e ∈ q := by
        rw [pruneCompletedDiscoveryItems] at hmem
        exact List.mem_of_mem_filter hmem
      rcases hq : q.find? (fun x => x.target_filename == t) with _ | e₀
      · rw [List.find?_eq_none] at hq
        have := hq e heq
        simp [hpe] at this
      · have he₀ : e₀ ∈ q := List.mem_of_find?_eq_some hq
        have hpe₀ := List.find?_some hq
        simp only [beq_iff_eq] at hpe₀
        have : e₀ = e := by
          apply List.inj_on_of_nodup_map hu he₀ heq
          rw [hpe₀, hpe]
        rw [statusOf, hq, this]
        simp [hp]

/-- Witness for the amended claim C9: pruning a store whose entry is pending
leaves it pending, and the theorem traces that status back. -/
theorem statusNeverBackToPending_witness :
    statusOf c9PendingQueue "p.html" = some "pending" ∨
      statusOf c9PendingQueue "p.html" = none :=
  statusNeverBackToPending (QueueOp.prune 5) c9PendingQueue "p.html"
    (by decide) (by decide)

end NotWiki
